import Mathlib

/-!
Verification of the dependency-extraction pipeline of
cfn-template-dependency-visualization (src/cfntdv/main.py).

The decoded document tree (the result of `json.loads(to_json(...))`) is
modelled by `Cfntdv.Val`; the scanner, builder and renderer functions are
shallow embeddings of the corresponding Python functions.  Python runtime
errors that the scanner can raise (`TypeError` when an unhashable value is
added to a set, `AttributeError` when `.get` is called on a non-mapping)
are modelled with `Except PyErr`.
-/

namespace Cfntdv

/-- Left brace character (written via its code point). -/
def lbrace : Char := Char.ofNat 123

/-- Right brace character (written via its code point). -/
def rbrace : Char := Char.ofNat 125

/-- A decoded document tree: the JSON value produced by
`json.loads(to_json(template_text))` — mappings with string keys,
sequences, and the JSON scalars. -/
inductive Val where
  | str (s : String)
  | num (n : Int)
  | bool (b : Bool)
  | null
  | arr (items : List Val)
  | dict (entries : List (String × Val))

/-- Induction principle for `Val` giving membership hypotheses for the
children of sequences and mappings. -/
theorem Val.indOn {P : Val → Prop}
    (hstr : ∀ s, P (.str s)) (hnum : ∀ n, P (.num n)) (hbool : ∀ b, P (.bool b))
    (hnull : P .null)
    (harr : ∀ items, (∀ v ∈ items, P v) → P (.arr items))
    (hdict : ∀ entries, (∀ kv ∈ entries, P kv.2) → P (.dict entries)) :
    ∀ v, P v := by
  have main : ∀ n v, sizeOf v ≤ n → P v := by
    intro n
    induction n with
    | zero =>
      intro v hv
      cases v <;> simp_arith at hv
    | succ n ih =>
      intro v hv
      cases v with
      | str s => exact hstr s
      | num m => exact hnum m
      | bool b => exact hbool b
      | null => exact hnull
      | arr items =>
        refine harr items (fun u hu => ih u ?_)
        have h1 := List.sizeOf_lt_of_mem hu
        have h2 : sizeOf (Val.arr items) = 1 + sizeOf items := by simp
        omega
      | dict entries =>
        refine hdict entries (fun kv hkv => ih kv.2 ?_)
        have h1 := List.sizeOf_lt_of_mem hkv
        have h2 : sizeOf (Val.dict entries) = 1 + sizeOf entries := by simp
        obtain ⟨k, u⟩ := kv
        simp_arith at h1 ⊢
        omega
  exact fun v => main (sizeOf v) v le_rfl

mutual

/-- Structural equality test for `Val`. -/
def Val.beq : Val → Val → Bool
  | .str a, .str b => a == b
  | .num a, .num b => a == b
  | .bool a, .bool b => a == b
  | .null, .null => true
  | .arr a, .arr b => Val.beqArr a b
  | .dict a, .dict b => Val.beqDict a b
  | _, _ => false

/-- `Val.beq` on sequences. -/
def Val.beqArr : List Val → List Val → Bool
  | [], [] => true
  | a :: as, b :: bs => Val.beq a b && Val.beqArr as bs
  | _, _ => false

/-- `Val.beq` on mapping entry lists. -/
def Val.beqDict : List (String × Val) → List (String × Val) → Bool
  | [], [] => true
  | (ka, a) :: as, (kb, b) :: bs => ka == kb && Val.beq a b && Val.beqDict as bs
  | _, _ => false

end

theorem Val.beq_iff : ∀ a b : Val, Val.beq a b = true ↔ a = b := by
  intro a
  induction a using Val.indOn with
  | hstr s => intro b; cases b <;> simp [Val.beq]
  | hnum n => intro b; cases b <;> simp [Val.beq]
  | hbool x => intro b; cases b <;> simp [Val.beq]
  | hnull => intro b; cases b <;> simp [Val.beq]
  | harr items ih =>
    intro b
    cases b with
    | arr items2 =>
      simp only [Val.beq]
      induction items generalizing items2 with
      | nil => cases items2 <;> simp [Val.beqArr]
      | cons a as ihl =>
        cases items2 with
        | nil => simp [Val.beqArr]
        | cons b bs =>
          have ha := ih a (by simp)
          have hrest := ihl (fun v hv => ih v (by simp [hv])) bs
          simp only [Val.beqArr, Bool.and_eq_true, ha b, hrest]
          simp
    | str s => simp [Val.beq]
    | num n => simp [Val.beq]
    | bool x => simp [Val.beq]
    | null => simp [Val.beq]
    | dict es => simp [Val.beq]
  | hdict entries ih =>
    intro b
    cases b with
    | dict entries2 =>
      simp only [Val.beq]
      induction entries generalizing entries2 with
      | nil => cases entries2 <;> simp [Val.beqDict]
      | cons a as ihl =>
        cases entries2 with
        | nil => obtain ⟨k, v⟩ := a; simp [Val.beqDict]
        | cons b bs =>
          obtain ⟨ka, va⟩ := a
          obtain ⟨kb, vb⟩ := b
          have ha : ∀ c : Val, Val.beq va c = true ↔ va = c := ih (ka, va) (by simp)
          have hrest := ihl (fun kv hkv => ih kv (by simp [hkv])) bs
          simp only [Val.beqDict, Bool.and_eq_true, beq_iff_eq, ha, hrest]
          constructor
          · rintro ⟨⟨hk, hv⟩, hr⟩
            subst hk; subst hv
            simp only [Val.dict.injEq] at hr ⊢
            simp [hr]
          · intro h
            simp only [Val.dict.injEq, List.cons.injEq, Prod.mk.injEq] at h
            obtain ⟨⟨hk, hv⟩, hr⟩ := h
            subst hk; subst hv
            simp [Val.dict.injEq, hr]
    | str s => simp [Val.beq]
    | num n => simp [Val.beq]
    | bool x => simp [Val.beq]
    | null => simp [Val.beq]
    | arr its => simp [Val.beq]

instance : DecidableEq Val := fun a b =>
  decidable_of_iff (Val.beq a b = true) (Val.beq_iff a b)

/-- Python truthiness of a decoded JSON value (`if export:`). -/
def Val.truthy : Val → Bool
  | .str s => s != ""
  | .num n => n != 0
  | .bool b => b
  | .null => false
  | .arr items => !items.isEmpty
  | .dict entries => !entries.isEmpty

/-- Whether a decoded JSON value is hashable in Python: scalars are,
`dict` and `list` are not (adding one to a `set` raises `TypeError`). -/
def Val.hashable : Val → Bool
  | .arr _ => false
  | .dict _ => false
  | _ => true

/-- Whether a decoded JSON value is a string scalar. -/
def Val.isStr : Val → Bool
  | .str _ => true
  | _ => false

/-- `d.get(k)` on a decoded mapping (decoded mappings have unique keys,
so first-match lookup agrees with Python). -/
def pyGet : List (String × Val) → String → Option Val
  | [], _ => none
  | (k', v) :: rest, k => if k' = k then some v else pyGet rest k

/-- `s.add(x)` on a Python set, modelled as a duplicate-free list in
first-insertion order. -/
def setAdd {α : Type} [DecidableEq α] (s : List α) (x : α) : List α :=
  if x ∈ s then s else s ++ [x]

/-- Python runtime errors the scanner can raise. -/
inductive PyErr where
  | typeError
  | attributeError
  deriving DecidableEq, Repr

mutual

/-- `find_imports` (main.py lines 101-111): recursively find all
`Fn::ImportValue` references.  `imports.add(value)` raises `TypeError`
when the value is unhashable (a mapping or a sequence). -/
def findImports : Val → List Val → Except PyErr (List Val)
  | .dict entries, acc => findImportsDict entries acc
  | .arr items, acc => findImportsArr items acc
  | _, acc => .ok acc

/-- The `for key, value in obj.items()` loop of `find_imports`. -/
def findImportsDict : List (String × Val) → List Val → Except PyErr (List Val)
  | [], acc => .ok acc
  | (k, v) :: rest, acc => do
    let acc ←
      if k = "Fn::ImportValue" then
        if v.hashable then pure (setAdd acc v) else throw PyErr.typeError
      else
        pure acc
    let acc ← findImports v acc
    findImportsDict rest acc

/-- The `for item in obj` loop of `find_imports`. -/
def findImportsArr : List Val → List Val → Except PyErr (List Val)
  | [], acc => .ok acc
  | v :: rest, acc => do
    let acc ← findImports v acc
    findImportsArr rest acc

end

mutual

/-- The values keyed by `Fn::ImportValue` anywhere in a tree, in
traversal order (specification-level description of what
`find_imports` collects). -/
def importVals : Val → List Val
  | .dict entries => importValsDict entries
  | .arr items => importValsArr items
  | _ => []

/-- `importVals` over the entries of a mapping. -/
def importValsDict : List (String × Val) → List Val
  | [] => []
  | (k, v) :: rest =>
    (if k = "Fn::ImportValue" then [v] else []) ++ importVals v ++ importValsDict rest

/-- `importVals` over the items of a sequence. -/
def importValsArr : List Val → List Val
  | [] => []
  | v :: rest => importVals v ++ importValsArr rest

end

mutual

/-- All string scalars occurring anywhere in a tree, in traversal order. -/
def strScalars : Val → List String
  | .str s => [s]
  | .dict entries => strScalarsDict entries
  | .arr items => strScalarsArr items
  | _ => []

/-- `strScalars` over the entries of a mapping. -/
def strScalarsDict : List (String × Val) → List String
  | [] => []
  | (_, v) :: rest => strScalars v ++ strScalarsDict rest

/-- `strScalars` over the items of a sequence. -/
def strScalarsArr : List Val → List String
  | [] => []
  | v :: rest => strScalars v ++ strScalarsArr rest

end

/-! ### The regex `DYNAMIC_REF_PATTERN` (main.py line 17)

`re.compile(r"\{\{resolve:.*?}}")` — the matcher below transcribes its
semantics on a character list: a match starts at a literal `{{resolve:`,
the lazy `.*?` payload spans any characters other than a newline, and the
match ends at the first following `}}`.  `findall` yields the leftmost
non-overlapping matches. -/

/-- The literal match opener `{{resolve:` of `DYNAMIC_REF_PATTERN`. -/
def resolveOpen : List Char := "\x7b\x7bresolve:".toList

/-- `listStarts p s` holds when `p` is an initial segment of `s`. -/
def listStarts : List Char → List Char → Bool
  | [], _ => true
  | _ :: _, [] => false
  | p :: ps, c :: cs => p = c && listStarts ps cs

/-- Scan for the closing `}}` of a lazy `.*?}}` tail: returns the payload
consumed before the first `}}` and the remainder after it; fails at a
newline (`.` does not match `\n`) or at end of input. -/
def findClose : List Char → Option (List Char × List Char)
  | [] => none
  | [_] => none
  | c :: c2 :: cs =>
    if c = rbrace ∧ c2 = rbrace then some ([], cs)
    else if c = '\n' then none
    else (findClose (c2 :: cs)).map fun pr => (c :: pr.1, pr.2)

theorem findClose_length :
    ∀ l p r : List Char, findClose l = some (p, r) → l.length = p.length + r.length + 2 := by
  intro l
  induction l with
  | nil => intro p r h; simp [findClose] at h
  | cons c cs ih =>
    intro p r h
    cases cs with
    | nil => simp [findClose] at h
    | cons c2 cs2 =>
      rw [findClose] at h
      split at h
      · simp only [Option.some.injEq, Prod.mk.injEq] at h
        obtain ⟨hp, hr⟩ := h
        subst hp; subst hr
        simp
      · split at h
        · simp at h
        · simp only [Option.map_eq_some'] at h
          obtain ⟨⟨p', r'⟩, hfc, heq⟩ := h
          simp only [Prod.mk.injEq] at heq
          obtain ⟨hp, hr⟩ := heq
          subst hp; subst hr
          have := ih p' r' hfc
          simp at this ⊢
          omega

/-- `DYNAMIC_REF_PATTERN.findall` (used at main.py line 126): the leftmost
non-overlapping matches of `\{\{resolve:.*?}}` in a character list, each
returned verbatim (braces included). -/
def dynMatches : List Char → List String
  | [] => []
  | c :: cs =>
    if listStarts resolveOpen (c :: cs) then
      match h : findClose ((c :: cs).drop 10) with
      | some (payload, rest) =>
        (resolveOpen ++ payload ++ [rbrace, rbrace]).asString :: dynMatches rest
      | none => dynMatches cs
    else dynMatches cs
  termination_by l => l.length
  decreasing_by
    · have h1 := findClose_length _ _ _ h
      simp only [List.length_drop, List.length_cons] at h1
      simp only [List.length_cons]
      omega
    · simp
    · simp

mutual

/-- `find_dynamic_references` (main.py lines 114-127): recursively collect
all `{{resolve:...}}` matches from every string scalar. -/
def findDyn : Val → List String → List String
  | .str s, acc => (dynMatches s.toList).foldl setAdd acc
  | .dict entries, acc => findDynDict entries acc
  | .arr items, acc => findDynArr items acc
  | _, acc => acc

/-- The `for value in obj.values()` loop of `find_dynamic_references`. -/
def findDynDict : List (String × Val) → List String → List String
  | [], acc => acc
  | (_, v) :: rest, acc => findDynDict rest (findDyn v acc)

/-- The `for item in obj` loop of `find_dynamic_references`. -/
def findDynArr : List Val → List String → List String
  | [], acc => acc
  | v :: rest, acc => findDynArr rest (findDyn v acc)

end

/-! ### `extract_exports_and_imports` (main.py lines 130-168)

The file reading and YAML→JSON decoding are external collaborators; the
function is modelled from the decoded top-level mapping
(`parsed_data = json.loads(data)`, a mapping for a CFn template) onward. -/

/-- One scanned document's result (`{"exports": ..., "imports": ...,
"dynamics": ...}`).  Python sets are modelled as duplicate-free lists in
insertion order; `exports` and `imports` hold decoded values because the
code adds whatever value it finds, string or not. -/
structure ScanResult where
  exports : List Val
  imports : List Val
  dynamics : List String
  deriving DecidableEq

/-- `v.get("Export", {}).get("Name")` for one value of the `Outputs`
mapping: raises `AttributeError` when `v` or its `Export` entry is not a
mapping, otherwise returns the optional `Name` value. -/
def getExportName (v : Val) : Except PyErr (Option Val) :=
  match v with
  | .dict es =>
    match (pyGet es "Export").getD (.dict []) with
    | .dict es2 => .ok (pyGet es2 "Name")
    | _ => throw PyErr.attributeError
  | _ => throw PyErr.attributeError

/-- The `for v in outputs.values()` loop of `extract_exports_and_imports`:
collect each truthy `Export.Name` value (`if export: exports.add(export)`;
the `add` raises `TypeError` on an unhashable value). -/
def collectExports : List (String × Val) → List Val → Except PyErr (List Val)
  | [], acc => .ok acc
  | (_, v) :: rest, acc => do
    let ex? ← getExportName v
    match ex? with
    | some ex =>
      if ex.truthy then
        if ex.hashable then collectExports rest (setAdd acc ex)
        else throw PyErr.typeError
      else collectExports rest acc
    | none => collectExports rest acc

/-- `extract_exports_and_imports` from the decoded top-level mapping
onward: the `Outputs` section scan, then `find_imports`, then
`find_dynamic_references`. -/
def extract_exports_and_imports (doc : List (String × Val)) : Except PyErr ScanResult := do
  let exports ←
    match pyGet doc "Outputs" with
    | none => pure []
    | some outs =>
      match outs with
      | .dict oes => collectExports oes []
      | _ => throw PyErr.attributeError
  let imports ← findImports (.dict doc) []
  let dynamics := findDyn (.dict doc) []
  pure ⟨exports, imports, dynamics⟩

/-! ### `build_dependency_graph` (main.py lines 182-199)

The builder consumes the per-document results at the data-model level
(§3 of the spec): three sets of strings per document.  `template_info` is
a Python dict (unique keys, insertion order), modelled as a list of
pairs. -/

/-- A per-document scan record as the builder consumes it. -/
structure ScanInfo where
  exports : List String
  imports : List String
  dynamics : List String
  deriving DecidableEq, Repr

/-- A directed dependency edge `(src, dst, label, kind)` as built by
`build_dependency_graph`. -/
structure Edge where
  src : String
  dst : String
  label : String
  kind : String
  deriving DecidableEq, Repr

/-- Python dict assignment `m[k] = v`: overwrite in place when the key is
present, append otherwise. -/
def dictSet (m : List (String × String)) (k v : String) : List (String × String) :=
  match m with
  | [] => [(k, v)]
  | (k', v') :: rest => if k' = k then (k', v) :: rest else (k', v') :: dictSet rest k v

/-- Python dict lookup on a unique-key association list. -/
def strLookup : List (String × String) → String → Option String
  | [], _ => none
  | (k', v) :: rest, k => if k' = k then some v else strLookup rest k

/-- The first loop of `build_dependency_graph`: `nodes[export] = path`
for every document and every export (last write wins). -/
def buildNodes (ti : List (String × ScanInfo)) : List (String × String) :=
  ti.foldl (fun m pi => pi.2.exports.foldl (fun m e => dictSet m e pi.1) m) []

/-- The edges one document contributes: one `import` edge per imported
name (resolved through `nodes`, sentinel `"(unknown)"` when absent) and
one `dynamic` edge per dynamic marker. -/
def docEdges (nodes : List (String × String)) (path : String) (info : ScanInfo) : List Edge :=
  info.imports.map (fun imp =>
    match strLookup nodes imp with
    | some producer => ⟨path, producer, imp, "import"⟩
    | none => ⟨path, "(unknown)", imp, "import"⟩)
  ++ info.dynamics.map (fun dyn => ⟨path, dyn, dyn, "dynamic"⟩)

/-- The second loop of `build_dependency_graph`. -/
def buildEdges (nodes : List (String × String)) (ti : List (String × ScanInfo)) : List Edge :=
  ti.foldl (fun es pi => es ++ docEdges nodes pi.1 pi.2) []

/-- `build_dependency_graph`: the producer index and the edge list. -/
def build_dependency_graph (ti : List (String × ScanInfo)) :
    List (String × String) × List Edge :=
  (buildNodes ti, buildEdges (buildNodes ti) ti)

/-- The producer the spec promises for a name: the last-processed
document whose exports contain it. -/
def lastProducer (ti : List (String × ScanInfo)) (n : String) : Option String :=
  ((ti.filter (fun pi => decide (n ∈ pi.2.exports))).map Prod.fst).getLast?

/-! ### `normalize_dynamic_node` (main.py lines 22-31)

`re.sub(r"\$\{([A-Za-z0-9_]+)\}", r"$\1", node)` followed by removal of
every remaining literal brace. -/

/-- A character of the class `[A-Za-z0-9_]`. -/
def isIdentChar (c : Char) : Bool := c.isAlpha || c.isDigit || c = '_'

/-- Split off the longest leading run of `[A-Za-z0-9_]` characters. -/
def identRun : List Char → List Char × List Char
  | [] => ([], [])
  | c :: cs =>
    if isIdentChar c then
      let pr := identRun cs
      (c :: pr.1, pr.2)
    else ([], c :: cs)

theorem identRun_length (l : List Char) : (identRun l).2.length ≤ l.length := by
  induction l with
  | nil => simp [identRun]
  | cons c cs ih =>
    rw [identRun]
    split
    · simpa using Nat.le_succ_of_le ih
    · simp

/-- The substitution pass of `normalize_dynamic_node`: replace each
occurrence of `${Ident}` by `$Ident` (leftmost, non-overlapping, the
identifier being a non-empty `[A-Za-z0-9_]+` run). -/
def substDollarBrace : List Char → List Char
  | [] => []
  | [c] => [c]
  | c :: c2 :: cs2 =>
    if c = '$' ∧ c2 = lbrace then
      match h : identRun cs2 with
      | (ident, c3 :: rest2) =>
        if ident ≠ [] ∧ c3 = rbrace then '$' :: (ident ++ substDollarBrace rest2)
        else c :: substDollarBrace (c2 :: cs2)
      | (_, []) => c :: substDollarBrace (c2 :: cs2)
    else c :: substDollarBrace (c2 :: cs2)
  termination_by l => l.length
  decreasing_by
    · have h1 := identRun_length cs
      rw [h] at h1
      simp at h1 ⊢
      omega
    · simp
    · simp
    · simp

/-- `normalize_dynamic_node`: the `${Ident}` substitution followed by
`.replace("{", "").replace("}", "")`. -/
def normalize_dynamic_node (node : String) : String :=
  ((substDollarBrace node.toList).filter fun c => !(c = lbrace || c = rbrace)).asString

/-! ### `DYN_NODE_PATTERN` (main.py line 19) and the renderer
(`generate_mermaid_text`, main.py lines 215-255) -/

/-- One alternative of `DYN_NODE_PATTERN.fullmatch`: match the whole
string against `\{\{resolve:TAG:(.+?)}}` for a fixed service tag.  With
`fullmatch` the lazy payload must extend to the final `}}`, so the match
succeeds exactly when the string is `{{resolve:TAG:` ++ payload ++ `}}`
with a non-empty payload free of newlines. -/
def tryTag (tag : String) (cs : List Char) : Option (String × String) :=
  let pre := resolveOpen ++ tag.toList ++ [':']
  if listStarts pre cs then
    let rest := cs.drop pre.length
    if rest.length ≥ 3 then
      let payload := rest.take (rest.length - 2)
      let suffix := rest.drop (rest.length - 2)
      if suffix = [rbrace, rbrace] ∧ '\n' ∉ payload then some (tag, payload.asString)
      else none
    else none
  else none

/-- `DYN_NODE_PATTERN.fullmatch` (main.py line 232): the alternation
`(ssm|ssm-secure|secretsmanager)` tried in order, returning the captured
tag and payload. -/
def dynNodeFullmatch (s : String) : Option (String × String) :=
  match tryTag "ssm" s.toList with
  | some r => some r
  | none =>
    match tryTag "ssm-secure" s.toList with
    | some r => some r
    | none => tryTag "secretsmanager" s.toList

/-- The inline `re.fullmatch` of the fallback branch (main.py lines
238-241), whose pattern string is character-for-character identical to
`DYN_NODE_PATTERN`. -/
def dynNodeFullmatchInner (s : String) : Option (String × String) :=
  match tryTag "ssm" s.toList with
  | some r => some r
  | none =>
    match tryTag "ssm-secure" s.toList with
    | some r => some r
    | none => tryTag "secretsmanager" s.toList

/-- Split a character list at every `/`. -/
def splitSlash : List Char → List (List Char)
  | [] => [[]]
  | c :: cs =>
    match splitSlash cs with
    | [] => [[]]
    | g :: gs => if c = '/' then [] :: g :: gs else (c :: g) :: gs

/-- `Path(p).name`: the final path component (empty-string and `.`
components dropped, as `pathlib` parsing does). -/
def pathName (p : String) : String :=
  (((splitSlash p.toList).filter fun c => decide (c ≠ [] ∧ c ≠ ['.'])).getLast?).getD []
    |>.asString

/-- The short name used for an edge endpoint: the path's final component,
except that the sentinel `"(unknown)"` is kept verbatim. -/
def shortName (s : String) : String :=
  if s = "(unknown)" then s else pathName s

/-- The rendered text of one edge (the body of the `for src, dst, imp,
typ in edges` loop of `generate_mermaid_text`). -/
def renderEdge (e : Edge) : String :=
  if e.kind = "dynamic" then
    let ln :=
      match dynNodeFullmatch e.label with
      | some (tag, payload) => (tag, normalize_dynamic_node payload)
      | none =>
        match dynNodeFullmatchInner e.label with
        | some (tag, payload) => (tag, normalize_dynamic_node payload)
        | none => ("dynamic", normalize_dynamic_node e.label)
    "    " ++ shortName e.src ++ "-->|" ++ ln.1 ++ "|" ++ ln.2 ++ "[(" ++ ln.2 ++ ")]"
  else
    "    " ++ shortName e.src ++ "-->|" ++ e.label ++ "|" ++ shortName e.dst

/-- Lexicographic comparison of character lists by code point — the
order Python's `list.sort()` uses on strings. -/
def charListLe : List Char → List Char → Bool
  | [], _ => true
  | _ :: _, [] => false
  | a :: as, b :: bs => if a = b then charListLe as bs else decide (a < b)

/-- Python's `≤` on strings: lexicographic by code point. -/
def pyStrLe (a b : String) : Prop := charListLe a.data b.data = true

instance : DecidableRel pyStrLe := fun a b =>
  inferInstanceAs (Decidable (charListLe a.data b.data = true))

theorem charListLe_total : ∀ a b : List Char, charListLe a b = true ∨ charListLe b a = true := by
  intro a
  induction a with
  | nil => intro b; left; rfl
  | cons x xs ih =>
    intro b
    cases b with
    | nil => right; rfl
    | cons y ys =>
      by_cases hxy : x = y
      · subst hxy
        simpa [charListLe] using ih ys
      · rcases lt_trichotomy x y with h | h | h
        · left; simp [charListLe, hxy, h]
        · exact absurd h hxy
        · right; simp [charListLe, Ne.symm hxy, h]

theorem charListLe_trans :
    ∀ a b c : List Char, charListLe a b = true → charListLe b c = true →
      charListLe a c = true := by
  intro a
  induction a with
  | nil => intro b c _ _; rfl
  | cons x xs ih =>
    intro b c hab hbc
    cases b with
    | nil => simp [charListLe] at hab
    | cons y ys =>
      cases c with
      | nil => simp [charListLe] at hbc
      | cons z zs =>
        by_cases hxy : x = y <;> by_cases hyz : y = z
        · subst hxy; subst hyz
          simp [charListLe] at hab hbc ⊢
          exact ih ys zs hab hbc
        · subst hxy
          simp [charListLe, hyz] at hbc ⊢
          simp [hyz, hbc]
        · subst hyz
          simp [charListLe, hxy] at hab ⊢
          simp [hxy, hab]
        · simp [charListLe, hxy, hyz] at hab hbc
          have hxz : x < z := lt_trans hab hbc
          simp [charListLe, hxz, ne_of_lt hxz]

theorem charListLe_antisymm :
    ∀ a b : List Char, charListLe a b = true → charListLe b a = true → a = b := by
  intro a
  induction a with
  | nil =>
    intro b _ hba
    cases b with
    | nil => rfl
    | cons y ys => simp [charListLe] at hba
  | cons x xs ih =>
    intro b hab hba
    cases b with
    | nil => simp [charListLe] at hab
    | cons y ys =>
      by_cases hxy : x = y
      · subst hxy
        simp [charListLe] at hab hba
        rw [ih ys hab hba]
      · simp [charListLe, hxy, Ne.symm hxy] at hab hba
        exact absurd (lt_trans hab hba) (lt_irrefl x)

instance : IsTotal String pyStrLe := ⟨fun a b => charListLe_total a.data b.data⟩

instance : IsTrans String pyStrLe :=
  ⟨fun a b c hab hbc => charListLe_trans a.data b.data c.data hab hbc⟩

instance : IsAntisymm String pyStrLe := by
  refine ⟨fun a b hab hba => ?_⟩
  cases a; cases b
  exact congrArg String.mk (charListLe_antisymm _ _ hab hba)

/-- `generate_mermaid_text` up to the output step: header, direction
directive, the rendered edge lines sorted lexicographically, and the
closing fence, joined with newlines. -/
def generate_mermaid_text (edges : List Edge) (direction : String) : String :=
  String.intercalate "\n"
    (["# CFn template dependency\n\n```mermaid", "graph " ++ direction]
      ++ List.insertionSort pyStrLe (edges.map renderEdge)
      ++ ["```\n"])

/-- `renderEdge` with the redundant inner `re.fullmatch` branch removed. -/
def renderEdgeSimplified (e : Edge) : String :=
  if e.kind = "dynamic" then
    let ln :=
      match dynNodeFullmatch e.label with
      | some (tag, payload) => (tag, normalize_dynamic_node payload)
      | none => ("dynamic", normalize_dynamic_node e.label)
    "    " ++ shortName e.src ++ "-->|" ++ ln.1 ++ "|" ++ ln.2 ++ "[(" ++ ln.2 ++ ")]"
  else
    "    " ++ shortName e.src ++ "-->|" ++ e.label ++ "|" ++ shortName e.dst

/-- `generate_mermaid_text` with the redundant fallback branch removed. -/
def generate_mermaid_text_simplified (edges : List Edge) (direction : String) : String :=
  String.intercalate "\n"
    (["# CFn template dependency\n\n```mermaid", "graph " ++ direction]
      ++ List.insertionSort pyStrLe (edges.map renderEdgeSimplified)
      ++ ["```\n"])

/-! ### Output writing (main.py lines 256-284)

Writing the text to the target path is operating-system territory; the
outcome of `Path(output_file).open("w")` is a parameter: `none` for
success, or the exception the OS raises — `IsADirectoryError` when the
target is an existing directory, `FileNotFoundError` when its parent
directory is missing, `PermissionError` when writing is not permitted. -/

/-- The three write failures distinguished by `generate_mermaid_text`. -/
inductive WriteErr where
  | isADirectory
  | fileNotFound
  | permissionError
  deriving DecidableEq, Repr

/-- Outcome of the output step: the content written to the target (if
any), the exit status (if the process exits), the diagnostic-stream
message and the primary-stream message. -/
structure OutputResult where
  fileContent : Option String
  exitCode : Option Nat
  errMessage : Option String
  stdoutMessage : Option String
  deriving DecidableEq, Repr

/-- The `try/except` block writing the diagram text to `output_file`. -/
def writeDiagram (text : String) (outputFile : String) (osOutcome : Option WriteErr) :
    OutputResult :=
  match osOutcome with
  | none =>
    ⟨some text, none, none, some ("Mermaid notation has been output to " ++ outputFile ++ ".")⟩
  | some .isADirectory =>
    ⟨none, some 2, some ("[ERROR] Is a directory: " ++ outputFile), none⟩
  | some .fileNotFound =>
    ⟨none, some 3, some ("[ERROR] Output directory not found: " ++ outputFile), none⟩
  | some .permissionError =>
    ⟨none, some 4, some ("[ERROR] Permission denied when writing to: " ++ outputFile), none⟩

/-! ### `find_cfn_templates` (main.py lines 95-98)

The file system under the search directory is modelled as the list of its
files, each given by its path components relative to that directory.
`Path(directory).glob("*.yml")` matches only direct children (one
component) whose name ends in `.yml`. -/

/-- Whether string `s` ends with string `t`. -/
def strEnds (s t : String) : Bool := listStarts t.toList.reverse s.toList.reverse

/-- `find_cfn_templates`: `list(target_dir.glob("*.yml")) +
list(target_dir.glob("*.yaml"))`. -/
def find_cfn_templates (files : List (List String)) : List (List String) :=
  (files.filter fun f => decide (f.length = 1) && strEnds (f.getD 0 "") ".yml")
    ++ (files.filter fun f => decide (f.length = 1) && strEnds (f.getD 0 "") ".yaml")

/-- What the spec (and the function's own docstring) promises: every file
with extension `.yml` or `.yaml` anywhere under the directory,
recursively. -/
def findTemplatesRecursive (files : List (List String)) : List (List String) :=
  files.filter fun f =>
    strEnds ((f.getLast?).getD "") ".yml" || strEnds ((f.getLast?).getD "") ".yaml"

/-- The stricter dynamic-node pattern
`\{\{resolve:(ssm|ssm-secure|secretsmanager):(payload)}}` as a full-string
match, stated from the spec's wording: the whole marker is the literal
opener, one of the three service tags, a colon, a non-empty payload (the
lazy `.+?` of a `fullmatch` — no newlines), and the closing braces. -/
def specDynMatch (s tag payload : String) : Prop :=
  tag ∈ ["ssm", "ssm-secure", "secretsmanager"]
  ∧ payload ≠ ""
  ∧ '\n' ∉ payload.toList
  ∧ s = "\x7b\x7bresolve:" ++ tag ++ ":" ++ payload ++ "\x7d\x7d"

instance (s tag payload : String) : Decidable (specDynMatch s tag payload) := by
  unfold specDynMatch
  infer_instance

/-!
## Theorems
-/

theorem string_ext {a b : String} (h : a.data = b.data) : a = b := by
  cases a; cases b; exact congrArg String.mk h

theorem string_toList_append (a b : String) : (a ++ b).toList = a.toList ++ b.toList := by
  simp [String.toList, String.data_append]

theorem asString_data (l : List Char) : (l.asString).data = l := rfl

theorem string_ne_empty_iff {a : String} : a ≠ "" ↔ a.data ≠ [] := by
  constructor
  · intro h hd
    exact h (string_ext hd)
  · intro h hd
    exact h (congrArg String.data hd)

theorem concatData (t payload : String) :
    ("\x7b\x7bresolve:" ++ t ++ ":" ++ payload ++ "\x7d\x7d").data
      = resolveOpen ++ t.toList ++ [':'] ++ payload.toList ++ [rbrace, rbrace] := by
  have h1 : resolveOpen = ['\x7b', '\x7b', 'r', 'e', 's', 'o', 'l', 'v', 'e', ':'] := by decide
  have h3 : [rbrace, rbrace] = ['\x7d', '\x7d'] := by decide
  simp only [String.data_append, h1, h3, String.toList]

theorem listStarts_iff_take {p : List Char} :
    ∀ {s : List Char}, listStarts p s = true ↔ s.take p.length = p := by
  induction p with
  | nil => intro s; simp [listStarts]
  | cons c cs ih =>
    intro s
    cases s with
    | nil => simp [listStarts]
    | cons d ds =>
      simp only [listStarts, Bool.and_eq_true, decide_eq_true_eq, List.length_cons,
        List.take_succ_cons, List.cons.injEq, ih]
      constructor
      · rintro ⟨h1, h2⟩; exact ⟨h1.symm, h2⟩
      · rintro ⟨h1, h2⟩; exact ⟨h1.symm, h2⟩

theorem listStarts_append (p t : List Char) : listStarts p (p ++ t) = true := by
  rw [listStarts_iff_take, List.take_append_eq_append_take]
  simp

theorem listStarts_eq_append {p s : List Char} (h : listStarts p s = true) :
    s = p ++ s.drop p.length := by
  conv_lhs => rw [← List.take_append_drop p.length s]
  rw [listStarts_iff_take.mp h]

theorem listStarts_false {p q : List Char} (t : List Char)
    (hlen : p.length ≤ q.length) (hne : q.take p.length ≠ p) :
    listStarts p (q ++ t) = false := by
  cases hb : listStarts p (q ++ t) with
  | false => rfl
  | true =>
    exfalso
    have h := listStarts_iff_take.mp hb
    rw [List.take_append_eq_append_take, Nat.sub_eq_zero_of_le hlen, List.take_zero,
      List.append_nil] at h
    exact hne h

theorem tryTag_eq_some_iff {tag : String} {cs : List Char} {t p : String} :
    tryTag tag cs = some (t, p) ↔
      t = tag ∧ ∃ pl : List Char, pl ≠ [] ∧ '\n' ∉ pl
        ∧ cs = (resolveOpen ++ tag.toList ++ [':']) ++ pl ++ [rbrace, rbrace]
        ∧ p = pl.asString := by
  constructor
  · intro h
    simp only [tryTag] at h
    split at h
    case isTrue hstart =>
      split at h
      case isTrue hlen =>
        split at h
        case isTrue hcond =>
          obtain ⟨hsuffix, hnl⟩ := hcond
          simp only [Option.some.injEq, Prod.mk.injEq] at h
          obtain ⟨ht, hp⟩ := h
          set pre := resolveOpen ++ tag.toList ++ [':'] with hpre
          set rest := cs.drop pre.length with hrest
          set payload := rest.take (rest.length - 2) with hpayload
          refine ⟨ht.symm, payload, ?_, hnl, ?_, hp.symm⟩
          · have hplen : payload.length = rest.length - 2 := by
              rw [hpayload, List.length_take]
              omega
            intro hnil
            rw [hnil] at hplen
            simp at hplen
            omega
          · have hcs : cs = pre ++ rest := listStarts_eq_append hstart
            have hrp : rest = payload ++ [rbrace, rbrace] := by
              conv_lhs => rw [← List.take_append_drop (rest.length - 2) rest]
              rw [← hpayload, hsuffix]
            rw [hcs, hrp]
            simp [List.append_assoc]
        case isFalse => exact absurd h (by simp)
      case isFalse => exact absurd h (by simp)
    case isFalse => exact absurd h (by simp)
  · rintro ⟨ht, pl, hpl, hnl, hcs, hp⟩
    subst ht; subst hp
    have hplen : 0 < pl.length := List.length_pos.mpr hpl
    have hcs2 : cs = (resolveOpen ++ t.toList ++ [':']) ++ (pl ++ [rbrace, rbrace]) := by
      rw [hcs, List.append_assoc]
    rw [hcs2]
    simp only [tryTag]
    rw [if_pos (listStarts_append _ _), List.drop_left]
    have hlen : (pl ++ [rbrace, rbrace]).length = pl.length + 2 := by simp
    rw [if_pos (by rw [hlen]; omega)]
    have htake : (pl ++ [rbrace, rbrace]).take ((pl ++ [rbrace, rbrace]).length - 2) = pl := by
      rw [hlen, Nat.add_sub_cancel]
      exact List.take_left pl _
    have hdrop : (pl ++ [rbrace, rbrace]).drop ((pl ++ [rbrace, rbrace]).length - 2)
        = [rbrace, rbrace] := by
      rw [hlen, Nat.add_sub_cancel]
      exact List.drop_left pl _
    rw [if_pos ⟨hdrop, by rw [htake]; exact hnl⟩, htake]

theorem tryTag_none_of_no_start {tag : String} {cs : List Char}
    (h : listStarts (resolveOpen ++ tag.toList ++ [':']) cs = false) :
    tryTag tag cs = none := by
  simp only [tryTag, h]
  simp

theorem tryTag_none_of_other (tagA tagB : String) (pl : List Char)
    (hlen : (resolveOpen ++ tagA.toList ++ [':']).length
      ≤ (resolveOpen ++ tagB.toList ++ [':']).length)
    (hne : (resolveOpen ++ tagB.toList ++ [':']).take (resolveOpen ++ tagA.toList ++ [':']).length
      ≠ resolveOpen ++ tagA.toList ++ [':'])
    {cs : List Char}
    (hcs : cs = (resolveOpen ++ tagB.toList ++ [':']) ++ pl ++ [rbrace, rbrace]) :
    tryTag tagA cs = none := by
  apply tryTag_none_of_no_start
  have hassoc : (resolveOpen ++ tagB.toList ++ [':']) ++ pl ++ [rbrace, rbrace]
      = (resolveOpen ++ tagB.toList ++ [':']) ++ (pl ++ [rbrace, rbrace]) :=
    List.append_assoc _ _ _
  rw [hcs, hassoc]
  exact listStarts_false _ hlen hne

theorem dynNodeFullmatch_eq_some_iff {s tag payload : String} :
    dynNodeFullmatch s = some (tag, payload) ↔ specDynMatch s tag payload := by
  have hshape : ∀ t : String, t ∈ (["ssm", "ssm-secure", "secretsmanager"] : List String) →
      ∀ pl : List Char,
      s.toList = (resolveOpen ++ t.toList ++ [':']) ++ pl ++ [rbrace, rbrace] →
      pl ≠ [] → '\n' ∉ pl → payload = pl.asString →
      specDynMatch s t payload := by
    intro t ht pl hcs hpl hnl hp
    refine ⟨ht, ?_, ?_, ?_⟩
    · rw [hp, string_ne_empty_iff, asString_data]
      exact hpl
    · rw [hp]
      exact hnl
    · apply string_ext
      have hdata : s.data = (resolveOpen ++ t.toList ++ [':']) ++ pl ++ [rbrace, rbrace] := hcs
      have hptl : payload.toList = pl := by rw [hp]; rfl
      rw [hdata, concatData, hptl]
  constructor
  · intro h
    simp only [dynNodeFullmatch] at h
    split at h
    case h_1 r heq =>
      obtain ⟨ht, pl, hpl, hnl, hcs, hp⟩ := tryTag_eq_some_iff.mp (heq.trans h)
      subst ht
      exact hshape _ (by simp) pl hcs hpl hnl hp
    case h_2 heq1 =>
      split at h
      case h_1 r heq =>
        obtain ⟨ht, pl, hpl, hnl, hcs, hp⟩ := tryTag_eq_some_iff.mp (heq.trans h)
        subst ht
        exact hshape _ (by simp) pl hcs hpl hnl hp
      case h_2 heq2 =>
        obtain ⟨ht, pl, hpl, hnl, hcs, hp⟩ := tryTag_eq_some_iff.mp h
        subst ht
        exact hshape _ (by simp) pl hcs hpl hnl hp
  · rintro ⟨htag, hpe, hnl, heq⟩
    have hsl : s.toList
        = (resolveOpen ++ tag.toList ++ [':']) ++ payload.toList ++ [rbrace, rbrace] := by
      show s.data = _
      rw [heq, concatData]
    have hple : payload.toList ≠ [] := string_ne_empty_iff.mp hpe
    have hpasm : payload = payload.toList.asString := by
      cases payload; rfl
    simp only [List.mem_cons, List.mem_singleton, List.not_mem_nil, or_false] at htag
    rcases htag with h | h | h
    · subst h
      simp only [dynNodeFullmatch]
      rw [tryTag_eq_some_iff.mpr ⟨rfl, payload.toList, hple, hnl, hsl, hpasm⟩]
    · subst h
      have hnone : tryTag "ssm" s.toList = none :=
        tryTag_none_of_other "ssm" "ssm-secure" payload.toList (by decide) (by decide) hsl
      simp only [dynNodeFullmatch, hnone]
      rw [tryTag_eq_some_iff.mpr ⟨rfl, payload.toList, hple, hnl, hsl, hpasm⟩]
    · subst h
      have hnone1 : tryTag "ssm" s.toList = none :=
        tryTag_none_of_other "ssm" "secretsmanager" payload.toList (by decide) (by decide) hsl
      have hnone2 : tryTag "ssm-secure" s.toList = none :=
        tryTag_none_of_other "ssm-secure" "secretsmanager" payload.toList
          (by decide) (by decide) hsl
      simp only [dynNodeFullmatch, hnone1, hnone2]
      rw [tryTag_eq_some_iff.mpr ⟨rfl, payload.toList, hple, hnl, hsl, hpasm⟩]

theorem string_pos_length_of_ne_empty {p : String} (h : p ≠ "") : 0 < p.length := by
  have hd := string_ne_empty_iff.mp h
  have : p.data.length ≠ 0 := fun hz => hd (List.length_eq_zero.mp hz)
  show 0 < p.data.length
  omega

/-- Claim C5: a `dynamic` edge whose marker fully matches the stricter
pattern `{{resolve:(ssm|ssm-secure|secretsmanager):(payload)}}` is
rendered with the captured service tag as label and the normalized
payload as node name; any other marker falls back to the label
`dynamic` and the normalized whole marker; either way the node is drawn
in the cylindrical shape `node[(node)]`. -/
theorem generate_mermaid_dynamic_edges (src dst imp : String) :
    (∀ tag payload, specDynMatch imp tag payload →
      renderEdge ⟨src, dst, imp, "dynamic"⟩
        = "    " ++ shortName src ++ "-->|" ++ tag ++ "|" ++ normalize_dynamic_node payload
          ++ "[(" ++ normalize_dynamic_node payload ++ ")]")
  ∧ ((∀ tag payload, ¬ specDynMatch imp tag payload) →
      renderEdge ⟨src, dst, imp, "dynamic"⟩
        = "    " ++ shortName src ++ "-->|" ++ "dynamic" ++ "|" ++ normalize_dynamic_node imp
          ++ "[(" ++ normalize_dynamic_node imp ++ ")]") := by
  constructor
  · intro tag payload hspec
    have h : dynNodeFullmatch imp = some (tag, payload) :=
      dynNodeFullmatch_eq_some_iff.mpr hspec
    simp [renderEdge, h]
  · intro hnone
    have h : dynNodeFullmatch imp = none := by
      cases hm : dynNodeFullmatch imp with
      | none => rfl
      | some r =>
        obtain ⟨t, p⟩ := r
        exact absurd (dynNodeFullmatch_eq_some_iff.mp hm) (hnone t p)
    have hi : dynNodeFullmatchInner imp = none := h
    simp [renderEdge, h, hi]

/-- Witness for C5: a matching `ssm-secure` marker (the spec's concrete
scenario) and a non-matching marker rendered through the fallback. -/
theorem generate_mermaid_dynamic_edges_witness :
    renderEdge ⟨"dynamic.yaml", "m", "\x7b\x7bresolve:ssm-secure:MyParam:1\x7d\x7d", "dynamic"⟩
      = "    dynamic.yaml-->|ssm-secure|MyParam:1[(MyParam:1)]"
  ∧ renderEdge ⟨"dynamic.yaml", "m", "\x7b\x7bresolve:foo\x7d\x7d", "dynamic"⟩
      = "    dynamic.yaml-->|dynamic|resolve:foo[(resolve:foo)]" := by
  constructor
  · have h := (generate_mermaid_dynamic_edges "dynamic.yaml" "m"
        "\x7b\x7bresolve:ssm-secure:MyParam:1\x7d\x7d").1 "ssm-secure" "MyParam:1" (by decide)
    rw [h]
    simp [shortName, pathName, normalize_dynamic_node, substDollarBrace, identRun, isIdentChar]
    decide
  · have h := (generate_mermaid_dynamic_edges "dynamic.yaml" "m"
        "\x7b\x7bresolve:foo\x7d\x7d").2 ?hn
    case hn =>
      intro tag payload hspec
      have hm := dynNodeFullmatch_eq_some_iff.mpr hspec
      rw [show dynNodeFullmatch "\x7b\x7bresolve:foo\x7d\x7d" = none from by decide] at hm
      exact Option.noConfusion hm
    rw [h]
    simp [shortName, pathName, normalize_dynamic_node, substDollarBrace, identRun, isIdentChar]
    decide

theorem string_append_ne_of_length_ne {p q f : String} (h : p.length ≠ q.length) :
    p ++ f ≠ q ++ f := by
  intro he
  have hl := congrArg String.length he
  simp only [String.length_append] at hl
  omega

/-- Claim C8: the three write-failure cases are distinguished: an
existing-directory target exits with status 2 and no content is written,
a missing parent directory exits with status 3, insufficient permission
exits with status 4, each with a distinct message on the diagnostic
stream, and all three statuses are non-zero and pairwise distinct. -/
theorem writeDiagram_failure_cases (text outputFile : String) :
    (writeDiagram text outputFile (some .isADirectory)).exitCode = some 2
  ∧ (writeDiagram text outputFile (some .isADirectory)).fileContent = none
  ∧ (writeDiagram text outputFile (some .fileNotFound)).exitCode = some 3
  ∧ (writeDiagram text outputFile (some .fileNotFound)).fileContent = none
  ∧ (writeDiagram text outputFile (some .permissionError)).exitCode = some 4
  ∧ (writeDiagram text outputFile (some .permissionError)).fileContent = none
  ∧ (∀ e : WriteErr, ∃ m, (writeDiagram text outputFile (some e)).errMessage = some m)
  ∧ (writeDiagram text outputFile (some .isADirectory)).errMessage
      ≠ (writeDiagram text outputFile (some .fileNotFound)).errMessage
  ∧ (writeDiagram text outputFile (some .isADirectory)).errMessage
      ≠ (writeDiagram text outputFile (some .permissionError)).errMessage
  ∧ (writeDiagram text outputFile (some .fileNotFound)).errMessage
      ≠ (writeDiagram text outputFile (some .permissionError)).errMessage := by
  refine ⟨rfl, rfl, rfl, rfl, rfl, rfl, ?_, ?_, ?_, ?_⟩
  · rintro (_ | _ | _) <;> exact ⟨_, rfl⟩
  all_goals
    simp only [writeDiagram, ne_eq, Option.some.injEq]
    exact string_append_ne_of_length_ne (by decide)

/-- Claim C9 (code bug): the spec and the function's own docstring promise
a recursive search, but `glob("*.yml")`/`glob("*.yaml")` only matches
direct children of the directory: a template in a subdirectory is not
returned. -/
theorem find_cfn_templates_not_recursive :
    find_cfn_templates [["subdir", "a.yml"]] = []
  ∧ findTemplatesRecursive [["subdir", "a.yml"]] = [["subdir", "a.yml"]]
  ∧ find_cfn_templates [["a.yml"], ["b.yaml"], ["c.txt"]] = [["a.yml"], ["b.yaml"]] := by
  refine ⟨by decide, by decide, by decide⟩

/-- Claim C10: the inline `re.fullmatch` pattern of the fallback branch is
identical to `DYN_NODE_PATTERN`, so it returns the same match with the
same groups, and `generate_mermaid_text` is observationally equivalent to
the version with the intermediate branch removed. -/
theorem generate_mermaid_inner_fallback_redundant :
    (∀ s, dynNodeFullmatchInner s = dynNodeFullmatch s)
  ∧ (∀ (edges : List Edge) (direction : String),
      generate_mermaid_text edges direction
        = generate_mermaid_text_simplified edges direction) := by
  refine ⟨fun s => rfl, ?_⟩
  intro edges direction
  have hre : ∀ e : Edge, renderEdge e = renderEdgeSimplified e := by
    intro e
    by_cases hk : e.kind = "dynamic"
    · cases h : dynNodeFullmatch e.label with
      | some r => simp [renderEdge, renderEdgeSimplified, hk, h]
      | none =>
        have hi : dynNodeFullmatchInner e.label = none := h
        simp [renderEdge, renderEdgeSimplified, hk, h, hi]
    · simp [renderEdge, renderEdgeSimplified, hk]
  simp [generate_mermaid_text, generate_mermaid_text_simplified, funext hre]

/-- Claim C6: the rendered edge lines are sorted by their full rendered
text before joining, so the diagram text is invariant under permutation
of the input edge list, and rendering the same list twice is (trivially,
the renderer being a function) byte-identical. -/
theorem generate_mermaid_text_perm_invariant (direction : String) (e1 e2 : List Edge)
    (h : e1.Perm e2) :
    generate_mermaid_text e1 direction = generate_mermaid_text e2 direction
  ∧ generate_mermaid_text e1 direction = generate_mermaid_text e1 direction := by
  refine ⟨?_, rfl⟩
  have hp : (e1.map renderEdge).Perm (e2.map renderEdge) := h.map renderEdge
  have hs : List.insertionSort pyStrLe (e1.map renderEdge)
      = List.insertionSort pyStrLe (e2.map renderEdge) :=
    List.eq_of_perm_of_sorted
      (((List.perm_insertionSort pyStrLe _).trans hp).trans
        (List.perm_insertionSort pyStrLe _).symm)
      (List.sorted_insertionSort pyStrLe _) (List.sorted_insertionSort pyStrLe _)
  simp [generate_mermaid_text, hs]

/-- Witness for C6 at a concrete permuted pair of edge lists. -/
theorem generate_mermaid_text_perm_invariant_witness :
    generate_mermaid_text
        [⟨"b.yaml", "a.yaml", "E1", "import"⟩, ⟨"c.yaml", "(unknown)", "E2", "import"⟩] "LR"
      = generate_mermaid_text
        [⟨"c.yaml", "(unknown)", "E2", "import"⟩, ⟨"b.yaml", "a.yaml", "E1", "import"⟩] "LR" :=
  (generate_mermaid_text_perm_invariant "LR"
    [⟨"b.yaml", "a.yaml", "E1", "import"⟩, ⟨"c.yaml", "(unknown)", "E2", "import"⟩]
    [⟨"c.yaml", "(unknown)", "E2", "import"⟩, ⟨"b.yaml", "a.yaml", "E1", "import"⟩]
    (by decide)).1

theorem strLookup_dictSet (m : List (String × String)) (k v k' : String) :
    strLookup (dictSet m k v) k' = if k' = k then some v else strLookup m k' := by
  induction m with
  | nil =>
    simp only [dictSet, strLookup]
    by_cases h : k' = k
    · rw [if_pos h, if_pos h.symm]
    · rw [if_neg h, if_neg (fun he => h he.symm)]
  | cons hd rest ih =>
    obtain ⟨ka, va⟩ := hd
    simp only [dictSet]
    by_cases hka : ka = k
    · rw [if_pos hka]
      subst hka
      simp only [strLookup]
      by_cases hk : k' = ka
      · rw [if_pos hk, if_pos hk.symm]
      · rw [if_neg hk, if_neg (fun he => hk he.symm), if_neg (fun he => hk he.symm)]
    · rw [if_neg hka]
      simp only [strLookup, ih]
      by_cases h1 : ka = k'
      · subst h1
        rw [if_pos rfl, if_neg hka, if_pos rfl]
      · rw [if_neg h1]
        by_cases h2 : k' = k
        · rw [if_pos h2, if_pos h2]
        · rw [if_neg h2, if_neg h2, if_neg h1]

theorem strLookup_exports_fold (exports : List String) (p : String)
    (m : List (String × String)) (n : String) :
    strLookup (exports.foldl (fun m e => dictSet m e p) m) n
      = if n ∈ exports then some p else strLookup m n := by
  induction exports generalizing m with
  | nil => simp
  | cons e es ih =>
    simp only [List.foldl_cons, ih, strLookup_dictSet]
    by_cases hn : n ∈ es
    · simp [hn, List.mem_cons]
    · by_cases hne : n = e
      · simp [hn, hne, List.mem_cons]
      · simp [hn, hne, List.mem_cons]

theorem getLast?_cons_of_ne_nil {α : Type} (a : α) {l : List α} (h : l ≠ []) :
    (a :: l).getLast? = l.getLast? := by
  cases l with
  | nil => exact absurd rfl h
  | cons b bs => simp [List.getLast?_cons_cons]

theorem buildNodes_lookup_general (ti : List (String × ScanInfo)) (n : String) :
    ∀ m, strLookup
        (ti.foldl (fun m pi => pi.2.exports.foldl (fun m e => dictSet m e pi.1) m) m) n
      = match lastProducer ti n with
        | some p => some p
        | none => strLookup m n := by
  induction ti with
  | nil => intro m; rfl
  | cons hd rest ih =>
    intro m
    obtain ⟨path, info⟩ := hd
    simp only [List.foldl_cons, ih, strLookup_exports_fold]
    by_cases hmem : n ∈ info.exports
    · simp only [lastProducer, List.filter_cons, decide_eq_true_eq]
      rw [if_pos hmem, if_pos hmem]
      try simp only [List.map_cons]
      cases hrest : ((rest.filter fun pi => decide (n ∈ pi.2.exports)).map Prod.fst).getLast? with
      | none =>
        have hnil : (rest.filter fun pi => decide (n ∈ pi.2.exports)).map Prod.fst = [] :=
          List.getLast?_eq_none_iff.mp hrest
        rw [hnil]
        have hlp : lastProducer rest n = none := by simp [lastProducer, hnil]
        simp [hlp, hmem]
      | some p =>
        have hne : (rest.filter fun pi => decide (n ∈ pi.2.exports)).map Prod.fst ≠ [] := by
          intro hnil
          rw [hnil] at hrest
          simp at hrest
        rw [getLast?_cons_of_ne_nil _ hne]
        have hlp : lastProducer rest n = some p := hrest
        simp [hlp, hrest, hmem]
    · have hfe : lastProducer ((path, info) :: rest) n = lastProducer rest n := by
        simp only [lastProducer, List.filter_cons, decide_eq_true_eq]
        rw [if_neg hmem]
      rw [hfe]
      cases lastProducer rest n <;> simp [hmem]

theorem foldl_append_flatMap {α β : Type} (f : α → List β) :
    ∀ (l : List α) (acc : List β),
      l.foldl (fun es x => es ++ f x) acc = acc ++ l.flatMap f := by
  intro l
  induction l with
  | nil => intro acc; simp
  | cons x xs ih => intro acc; simp [ih, List.append_assoc]

theorem docEdges_src {nodes : List (String × String)} {p : String} {i : ScanInfo} {e : Edge}
    (h : e ∈ docEdges nodes p i) : e.src = p := by
  simp only [docEdges, List.mem_append, List.mem_map] at h
  rcases h with ⟨imp, _, rfl⟩ | ⟨d, _, rfl⟩
  · cases strLookup nodes imp <;> rfl
  · rfl

theorem filter_eq_singleton_of_nodup {l : List String} (h : l.Nodup) {a : String} (ha : a ∈ l) :
    l.filter (fun x => decide (x = a)) = [a] := by
  induction l with
  | nil => cases ha
  | cons b bs ih =>
    rw [List.nodup_cons] at h
    rcases List.mem_cons.mp ha with heq | hmem
    · subst heq
      simp only [List.filter_cons, decide_True]
      rw [List.filter_eq_nil_iff.mpr]
      · simp
      · intro x hx
        simp only [decide_eq_true_eq]
        intro hxb
        exact h.1 (hxb ▸ hx)
    · have hb : b ≠ a := fun hba => h.1 (hba ▸ hmem)
      simp only [List.filter_cons, decide_eq_true_eq]
      rw [if_neg hb]
      exact ih h.2 hmem

theorem eq_of_fst_eq_of_nodup {l : List (String × ScanInfo)}
    (h : (l.map Prod.fst).Nodup) :
    ∀ x ∈ l, ∀ y ∈ l, x.1 = y.1 → x = y := by
  induction l with
  | nil => simp
  | cons hd tl ih =>
    simp only [List.map_cons, List.nodup_cons] at h
    intro x hx y hy hfst
    rcases List.mem_cons.mp hx with rfl | hx'
    · rcases List.mem_cons.mp hy with rfl | hy'
      · rfl
      · exact absurd (List.mem_map.mpr ⟨y, hy', hfst.symm⟩) h.1
    · rcases List.mem_cons.mp hy with rfl | hy'
      · exact absurd (List.mem_map.mpr ⟨x, hx', hfst⟩) h.1
      · exact ih h.2 x hx' y hy' hfst

theorem filter_flatMap_eq_of_unique {α : Type} [DecidableEq α] (f : α → List Edge)
    (pred : Edge → Bool) :
    ∀ (l : List α), l.Nodup → ∀ x ∈ l,
      (∀ y ∈ l, y ≠ x → (f y).filter pred = []) →
      (l.flatMap f).filter pred = (f x).filter pred := by
  intro l
  induction l with
  | nil => intro _ x hx; cases hx
  | cons hd tl ih =>
    intro hnd x hx hzero
    rw [List.nodup_cons] at hnd
    rw [List.flatMap_cons, List.filter_append]
    rcases List.mem_cons.mp hx with rfl | hx'
    · have htl : (tl.flatMap f).filter pred = [] := by
        rw [List.filter_eq_nil_iff]
        intro e he
        obtain ⟨y, hy, hey⟩ := List.mem_flatMap.mp he
        have hyx : y ≠ x := fun hxy => hnd.1 (hxy ▸ hy)
        have := hzero y (List.mem_cons_of_mem x hy) hyx
        have hnotmem := List.filter_eq_nil_iff.mp this e hey
        exact hnotmem
      rw [htl, List.append_nil]
    · have hhd : (f hd).filter pred = [] := by
        apply hzero hd (List.mem_cons_self hd tl)
        intro hxy
        exact hnd.1 (hxy ▸ hx')
      rw [hhd, List.nil_append]
      exact ih hnd.2 x hx' (fun y hy => hzero y (List.mem_cons_of_mem hd hy))

/-- Claim C1: for every `template_info` map, the producer index maps each
exported name to the last-processed document exporting it (silent
last-write-wins), and for every document and every imported name exactly
one `import` edge is emitted, whose target is the producer when the name
is in the index and the sentinel `"(unknown)"` otherwise.  The builder is
a total function on all inputs (never a crash). -/
theorem build_dependency_graph_spec (ti : List (String × ScanInfo))
    (hpaths : (ti.map Prod.fst).Nodup)
    (himps : ∀ pi ∈ ti, pi.2.imports.Nodup) :
    (∀ n, strLookup (build_dependency_graph ti).1 n = lastProducer ti n)
  ∧ (∀ path info, (path, info) ∈ ti → ∀ name ∈ info.imports,
      (build_dependency_graph ti).2.filter
          (fun e => decide (e.src = path ∧ e.label = name ∧ e.kind = "import"))
        = [⟨path, (strLookup (build_dependency_graph ti).1 name).getD "(unknown)",
            name, "import"⟩]) := by
  have hnodes : ∀ n, strLookup (buildNodes ti) n = lastProducer ti n := by
    intro n
    have h := buildNodes_lookup_general ti n []
    simp only [buildNodes, h]
    cases lastProducer ti n <;> simp [strLookup]
  refine ⟨hnodes, ?_⟩
  intro path info hmem name hname
  have hedges : (build_dependency_graph ti).2
      = ti.flatMap (fun pi => docEdges (buildNodes ti) pi.1 pi.2) := by
    simp [build_dependency_graph, buildEdges, foldl_append_flatMap]
  rw [hedges]
  have hzero : ∀ y ∈ ti, y ≠ (path, info) →
      (docEdges (buildNodes ti) y.1 y.2).filter
        (fun e => decide (e.src = path ∧ e.label = name ∧ e.kind = "import")) = [] := by
    intro y hy hyne
    have hy1 : y.1 ≠ path := by
      intro h1
      exact hyne (eq_of_fst_eq_of_nodup hpaths y hy (path, info) hmem h1)
    rw [List.filter_eq_nil_iff]
    intro e he
    have hsrc := docEdges_src he
    simp only [decide_eq_true_eq, not_and]
    intro h1
    exact absurd (hsrc ▸ h1) hy1
  rw [filter_flatMap_eq_of_unique _ _ ti (List.Nodup.of_map _ hpaths) (path, info) hmem hzero]
  simp only [docEdges, List.filter_append]
  have hdyn : (info.dynamics.map fun dyn => Edge.mk path dyn dyn "dynamic").filter
      (fun e => decide (e.src = path ∧ e.label = name ∧ e.kind = "import")) = [] := by
    rw [List.filter_eq_nil_iff]
    intro e he
    simp only [List.mem_map] at he
    obtain ⟨d, _, rfl⟩ := he
    simp
  rw [hdyn, List.append_nil, List.filter_map]
  have hcomp : ((fun e : Edge => decide (e.src = path ∧ e.label = name ∧ e.kind = "import"))
      ∘ fun imp =>
        match strLookup (buildNodes ti) imp with
        | some producer => Edge.mk path producer imp "import"
        | none => Edge.mk path "(unknown)" imp "import")
      = fun imp => decide (imp = name) := by
    funext imp
    simp only [Function.comp]
    rw [decide_eq_decide]
    cases strLookup (buildNodes ti) imp <;> simp
  rw [hcomp, filter_eq_singleton_of_nodup (himps (path, info) hmem) hname]
  simp only [List.map_cons, List.map_nil]
  cases hl : strLookup (buildNodes ti) name <;> simp [build_dependency_graph, hl]

/-- Witness for C1 at the spec's three-document concrete scenario. -/
theorem build_dependency_graph_spec_witness :
    strLookup (build_dependency_graph
        [("t1.yaml", ⟨["Export1"], [], []⟩), ("t2.yaml", ⟨["Export2"], ["Export1"], []⟩),
         ("t3.yaml", ⟨[], ["Export2"], []⟩)]).1 "Export1" = some "t1.yaml"
  ∧ (build_dependency_graph
        [("t1.yaml", ⟨["Export1"], [], []⟩), ("t2.yaml", ⟨["Export2"], ["Export1"], []⟩),
         ("t3.yaml", ⟨[], ["Export2"], []⟩)]).2.filter
        (fun e => decide (e.src = "t2.yaml" ∧ e.label = "Export1" ∧ e.kind = "import"))
      = [⟨"t2.yaml", "t1.yaml", "Export1", "import"⟩] := by
  have h := build_dependency_graph_spec
    [("t1.yaml", ⟨["Export1"], [], []⟩), ("t2.yaml", ⟨["Export2"], ["Export1"], []⟩),
     ("t3.yaml", ⟨[], ["Export2"], []⟩)] (by decide) (by decide)
  constructor
  · rw [h.1 "Export1"]
    decide
  · rw [h.2 "t2.yaml" ⟨["Export2"], ["Export1"], []⟩ (by decide) "Export1" (by decide)]
    decide

theorem mem_setAdd {α : Type} [DecidableEq α] {s : List α} {a x : α} :
    x ∈ setAdd s a ↔ x ∈ s ∨ x = a := by
  simp only [setAdd]
  split_ifs with h
  · constructor
    · exact Or.inl
    · rintro (hx | rfl)
      · exact hx
      · exact h
  · simp

theorem nodup_setAdd {α : Type} [DecidableEq α] {s : List α} (h : s.Nodup) (a : α) :
    (setAdd s a).Nodup := by
  simp only [setAdd]
  split_ifs with hmem
  · exact h
  · simpa [List.nodup_append] using ⟨h, hmem⟩

theorem mem_foldl_setAdd {α : Type} [DecidableEq α] :
    ∀ (l : List α) (acc : List α) (x : α),
      x ∈ l.foldl setAdd acc ↔ x ∈ acc ∨ x ∈ l := by
  intro l
  induction l with
  | nil => simp
  | cons a as ih =>
    intro acc x
    simp only [List.foldl_cons, ih, mem_setAdd, List.mem_cons]
    constructor
    · rintro ((hx | rfl) | hx)
      · exact Or.inl hx
      · exact Or.inr (Or.inl rfl)
      · exact Or.inr (Or.inr hx)
    · rintro (hx | rfl | hx)
      · exact Or.inl (Or.inl hx)
      · exact Or.inl (Or.inr rfl)
      · exact Or.inr hx

theorem nodup_foldl_setAdd {α : Type} [DecidableEq α] :
    ∀ (l : List α) (acc : List α), acc.Nodup → (l.foldl setAdd acc).Nodup := by
  intro l
  induction l with
  | nil => intro acc h; exact h
  | cons a as ih =>
    intro acc h
    exact ih _ (nodup_setAdd h a)

theorem except_bind_ok {α β γ : Type} {m : Except γ α} {f : α → Except γ β} {b : β}
    (h : (m >>= f) = .ok b) : ∃ a, m = .ok a ∧ f a = .ok b := by
  cases m with
  | ok a => exact ⟨a, rfl, h⟩
  | error e => simp [Bind.bind, Except.bind] at h

/-! ### Characterization of `find_dynamic_references` -/

theorem findDyn_mem :
    ∀ v : Val, ∀ acc x,
      x ∈ findDyn v acc ↔ x ∈ acc ∨ ∃ s, s ∈ strScalars v ∧ x ∈ dynMatches s.toList := by
  intro v
  induction v using Val.indOn with
  | hstr s =>
    intro acc x
    simp [findDyn, strScalars, mem_foldl_setAdd]
  | hnum n => intro acc x; simp [findDyn, strScalars]
  | hbool b => intro acc x; simp [findDyn, strScalars]
  | hnull => intro acc x; simp [findDyn, strScalars]
  | harr items ih =>
    show ∀ acc x, x ∈ findDynArr items acc ↔ _ ∨ ∃ s, s ∈ strScalarsArr items ∧ _
    induction items with
    | nil => intro acc x; simp [findDynArr, strScalarsArr]
    | cons v rest ihl =>
      intro acc x
      simp only [findDynArr, strScalarsArr]
      rw [ihl (fun u hu => ih u (by simp [hu])), ih v (by simp)]
      simp [List.mem_append, or_and_right, exists_or, or_assoc]
  | hdict entries ih =>
    show ∀ acc x, x ∈ findDynDict entries acc ↔ _ ∨ ∃ s, s ∈ strScalarsDict entries ∧ _
    induction entries with
    | nil => intro acc x; simp [findDynDict, strScalarsDict]
    | cons kv rest ihl =>
      obtain ⟨k, v⟩ := kv
      intro acc x
      simp only [findDynDict, strScalarsDict]
      rw [ihl (fun u hu => ih u (by simp [hu])), ih (k, v) (by simp)]
      simp [List.mem_append, or_and_right, exists_or, or_assoc]

theorem findDyn_nodup :
    ∀ v : Val, ∀ acc, acc.Nodup → (findDyn v acc).Nodup := by
  intro v
  induction v using Val.indOn with
  | hstr s => intro acc h; exact nodup_foldl_setAdd _ _ h
  | hnum n => intro acc h; exact h
  | hbool b => intro acc h; exact h
  | hnull => intro acc h; exact h
  | harr items ih =>
    show ∀ acc, acc.Nodup → (findDynArr items acc).Nodup
    induction items with
    | nil => intro acc h; exact h
    | cons v rest ihl =>
      intro acc h
      exact ihl (fun u hu => ih u (by simp [hu])) _ (ih v (by simp) acc h)
  | hdict entries ih =>
    show ∀ acc, acc.Nodup → (findDynDict entries acc).Nodup
    induction entries with
    | nil => intro acc h; exact h
    | cons kv rest ihl =>
      obtain ⟨k, v⟩ := kv
      intro acc h
      exact ihl (fun u hu => ih u (by simp [hu])) _ (ih (k, v) (by simp) acc h)

/-! ### Characterization of `find_imports` -/

theorem findImports_ok_mem :
    ∀ v : Val, ∀ acc out, findImports v acc = .ok out →
      ∀ x, x ∈ out ↔ x ∈ acc ∨ x ∈ importVals v := by
  intro v
  induction v using Val.indOn with
  | hstr s => intro acc out h x; simp only [findImports] at h; cases h; simp [importVals]
  | hnum n => intro acc out h x; simp only [findImports] at h; cases h; simp [importVals]
  | hbool b => intro acc out h x; simp only [findImports] at h; cases h; simp [importVals]
  | hnull => intro acc out h x; simp only [findImports] at h; cases h; simp [importVals]
  | harr items ih =>
    show ∀ acc out, findImportsArr items acc = .ok out →
      ∀ x, x ∈ out ↔ x ∈ acc ∨ x ∈ importValsArr items
    induction items with
    | nil =>
      intro acc out h x
      simp only [findImportsArr] at h
      cases h
      simp [importValsArr]
    | cons v rest ihl =>
      intro acc out h x
      simp only [findImportsArr] at h
      obtain ⟨mid, hmid, hrest⟩ := except_bind_ok h
      rw [ihl (fun u hu => ih u (by simp [hu])) mid out hrest x,
        ih v (by simp) acc mid hmid x]
      simp [importValsArr, List.mem_append, or_assoc]
  | hdict entries ih =>
    show ∀ acc out, findImportsDict entries acc = .ok out →
      ∀ x, x ∈ out ↔ x ∈ acc ∨ x ∈ importValsDict entries
    induction entries with
    | nil =>
      intro acc out h x
      simp only [findImportsDict] at h
      cases h
      simp [importValsDict]
    | cons kv rest ihl =>
      obtain ⟨k, v⟩ := kv
      intro acc out h x
      by_cases hk : k = "Fn::ImportValue"
      · by_cases hh : v.hashable
        · have heq : findImportsDict ((k, v) :: rest) acc
              = (findImports v (setAdd acc v)) >>= findImportsDict rest := by
            simp [findImportsDict, hk, hh]
          rw [heq] at h
          obtain ⟨mid, hmid, hrest⟩ := except_bind_ok h
          rw [ihl (fun u hu => ih u (by simp [hu])) mid out hrest x,
            ih (k, v) (by simp) _ mid hmid x, mem_setAdd]
          simp [importValsDict, hk, List.mem_append, or_assoc]
        · have heq : findImportsDict ((k, v) :: rest) acc = .error PyErr.typeError := by
            simp only [findImportsDict, hk, if_pos rfl, hh, Bool.false_eq_true, if_false]
            rfl
          rw [heq] at h
          cases h
      · have heq : findImportsDict ((k, v) :: rest) acc
            = (findImports v acc) >>= findImportsDict rest := by
          simp [findImportsDict, hk]
        rw [heq] at h
        obtain ⟨mid, hmid, hrest⟩ := except_bind_ok h
        rw [ihl (fun u hu => ih u (by simp [hu])) mid out hrest x,
          ih (k, v) (by simp) acc mid hmid x]
        simp [importValsDict, hk, List.mem_append, or_assoc]

theorem findImports_ok_nodup :
    ∀ v : Val, ∀ acc out, findImports v acc = .ok out → acc.Nodup → out.Nodup := by
  intro v
  induction v using Val.indOn with
  | hstr s => intro acc out h hn; simp only [findImports] at h; cases h; exact hn
  | hnum n => intro acc out h hn; simp only [findImports] at h; cases h; exact hn
  | hbool b => intro acc out h hn; simp only [findImports] at h; cases h; exact hn
  | hnull => intro acc out h hn; simp only [findImports] at h; cases h; exact hn
  | harr items ih =>
    show ∀ acc out, findImportsArr items acc = .ok out → acc.Nodup → out.Nodup
    induction items with
    | nil => intro acc out h hn; simp only [findImportsArr] at h; cases h; exact hn
    | cons v rest ihl =>
      intro acc out h hn
      simp only [findImportsArr] at h
      obtain ⟨mid, hmid, hrest⟩ := except_bind_ok h
      exact ihl (fun u hu => ih u (by simp [hu])) mid out hrest
        (ih v (by simp) acc mid hmid hn)
  | hdict entries ih =>
    show ∀ acc out, findImportsDict entries acc = .ok out → acc.Nodup → out.Nodup
    induction entries with
    | nil => intro acc out h hn; simp only [findImportsDict] at h; cases h; exact hn
    | cons kv rest ihl =>
      obtain ⟨k, v⟩ := kv
      intro acc out h hn
      by_cases hk : k = "Fn::ImportValue"
      · by_cases hh : v.hashable
        · have heq : findImportsDict ((k, v) :: rest) acc
              = (findImports v (setAdd acc v)) >>= findImportsDict rest := by
            simp [findImportsDict, hk, hh]
          rw [heq] at h
          obtain ⟨mid, hmid, hrest⟩ := except_bind_ok h
          exact ihl (fun u hu => ih u (by simp [hu])) mid out hrest
            (ih (k, v) (by simp) _ mid hmid (nodup_setAdd hn v))
        · have heq : findImportsDict ((k, v) :: rest) acc = .error PyErr.typeError := by
            simp only [findImportsDict, hk, if_pos rfl, hh, Bool.false_eq_true, if_false]
            rfl
          rw [heq] at h
          cases h
      · have heq : findImportsDict ((k, v) :: rest) acc
            = (findImports v acc) >>= findImportsDict rest := by
          simp [findImportsDict, hk]
        rw [heq] at h
        obtain ⟨mid, hmid, hrest⟩ := except_bind_ok h
        exact ihl (fun u hu => ih u (by simp [hu])) mid out hrest
          (ih (k, v) (by simp) acc mid hmid hn)

theorem findImports_total :
    ∀ v : Val, (∀ u ∈ importVals v, u.hashable = true) →
      ∀ acc, ∃ out, findImports v acc = .ok out := by
  intro v
  induction v using Val.indOn with
  | hstr s => intro _ acc; exact ⟨acc, rfl⟩
  | hnum n => intro _ acc; exact ⟨acc, rfl⟩
  | hbool b => intro _ acc; exact ⟨acc, rfl⟩
  | hnull => intro _ acc; exact ⟨acc, rfl⟩
  | harr items ih =>
    show (∀ u ∈ importValsArr items, u.hashable = true) →
      ∀ acc, ∃ out, findImportsArr items acc = .ok out
    induction items with
    | nil => intro _ acc; exact ⟨acc, rfl⟩
    | cons v rest ihl =>
      intro hall acc
      have hv : ∀ u ∈ importVals v, u.hashable = true := by
        intro u hu
        exact hall u (by simp [importValsArr, List.mem_append, hu])
      obtain ⟨mid, hmid⟩ := ih v (by simp) hv acc
      obtain ⟨out, hout⟩ := ihl (fun u hu => ih u (by simp [hu]))
        (fun u hu => hall u (by simp [importValsArr, List.mem_append, hu])) mid
      refine ⟨out, ?_⟩
      simp only [findImportsArr, hmid]
      simpa [Bind.bind, Except.bind] using hout
  | hdict entries ih =>
    show (∀ u ∈ importValsDict entries, u.hashable = true) →
      ∀ acc, ∃ out, findImportsDict entries acc = .ok out
    induction entries with
    | nil => intro _ acc; exact ⟨acc, rfl⟩
    | cons kv rest ihl =>
      obtain ⟨k, v⟩ := kv
      intro hall acc
      have hv : ∀ u ∈ importVals v, u.hashable = true := by
        intro u hu
        exact hall u (by simp [importValsDict, List.mem_append, hu])
      have hrest : ∀ u ∈ importValsDict rest, u.hashable = true := by
        intro u hu
        exact hall u (by simp [importValsDict, List.mem_append, hu])
      by_cases hk : k = "Fn::ImportValue"
      · have hhash : v.hashable = true := by
          apply hall v
          simp [importValsDict, hk]
        obtain ⟨mid, hmid⟩ := ih (k, v) (by simp) hv (setAdd acc v)
        obtain ⟨out, hout⟩ := ihl (fun u hu => ih u (by simp [hu])) hrest mid
        refine ⟨out, ?_⟩
        have heq : findImportsDict ((k, v) :: rest) acc
            = (findImports v (setAdd acc v)) >>= findImportsDict rest := by
          simp [findImportsDict, hk, hhash]
        rw [heq, hmid]
        simpa [Bind.bind, Except.bind] using hout
      · obtain ⟨mid, hmid⟩ := ih (k, v) (by simp) hv acc
        obtain ⟨out, hout⟩ := ihl (fun u hu => ih u (by simp [hu])) hrest mid
        refine ⟨out, ?_⟩
        have heq : findImportsDict ((k, v) :: rest) acc
            = (findImports v acc) >>= findImportsDict rest := by
          simp [findImportsDict, hk]
        rw [heq, hmid]
        simpa [Bind.bind, Except.bind] using hout

/-! ### Characterization of the `Outputs` scan -/

/-- The value at the nested path `Export.Name` under one `Outputs` value,
when the shapes make the path meaningful (`Export` defaulting to an empty
mapping as in `v.get("Export", {})`). -/
def exportNameOf (v : Val) : Option Val :=
  match v with
  | .dict es =>
    match (pyGet es "Export").getD (.dict []) with
    | .dict es2 => pyGet es2 "Name"
    | _ => none
  | _ => none

/-- The entries of the top-level `Outputs` mapping (empty when absent or
not a mapping). -/
def outputEntries (doc : List (String × Val)) : List (String × Val) :=
  match pyGet doc "Outputs" with
  | some (.dict oes) => oes
  | _ => []

/-- The truthy `Export.Name` values under the `Outputs` values — the
exports the spec promises. -/
def specExportNames (oes : List (String × Val)) : List Val :=
  oes.filterMap fun kv =>
    match exportNameOf kv.2 with
    | some n => if n.truthy then some n else none
    | none => none

theorem getExportName_ok {v : Val} {o : Option Val} (h : getExportName v = .ok o) :
    exportNameOf v = o := by
  cases v with
  | dict es =>
    cases hge : (pyGet es "Export").getD (.dict []) with
    | dict es2 =>
      simp only [getExportName, hge] at h
      cases h
      simp only [exportNameOf, hge]
    | str s => simp only [getExportName, hge] at h; exact Except.noConfusion h
    | num n => simp only [getExportName, hge] at h; exact Except.noConfusion h
    | bool b => simp only [getExportName, hge] at h; exact Except.noConfusion h
    | null => simp only [getExportName, hge] at h; exact Except.noConfusion h
    | arr l => simp only [getExportName, hge] at h; exact Except.noConfusion h
  | str s => exact Except.noConfusion h
  | num n => exact Except.noConfusion h
  | bool b => exact Except.noConfusion h
  | null => exact Except.noConfusion h
  | arr l => exact Except.noConfusion h

theorem collectExports_ok_mem :
    ∀ (oes : List (String × Val)) (acc out : List Val),
      collectExports oes acc = .ok out →
      ∀ x, x ∈ out ↔ x ∈ acc ∨ x ∈ specExportNames oes := by
  intro oes
  induction oes with
  | nil =>
    intro acc out h x
    simp only [collectExports] at h
    cases h
    simp [specExportNames]
  | cons kv rest ih =>
    obtain ⟨k, v⟩ := kv
    intro acc out h x
    simp only [collectExports] at h
    obtain ⟨o, ho, hrest⟩ := except_bind_ok h
    have hon := getExportName_ok ho
    cases o with
    | none =>
      simp only at hrest
      rw [ih acc out hrest x]
      simp [specExportNames, List.filterMap_cons, hon]
    | some ex =>
      simp only at hrest
      by_cases ht : ex.truthy
      · rw [if_pos ht] at hrest
        by_cases hhash : ex.hashable
        · rw [if_pos hhash] at hrest
          rw [ih _ out hrest x, mem_setAdd]
          simp [specExportNames, List.filterMap_cons, hon, ht, or_assoc]
          try tauto
        · rw [if_neg hhash] at hrest
          cases hrest
      · rw [if_neg ht] at hrest
        rw [ih acc out hrest x]
        simp [specExportNames, List.filterMap_cons, hon, ht]

theorem collectExports_ok_truthy :
    ∀ (oes : List (String × Val)) (acc out : List Val),
      collectExports oes acc = .ok out →
      (∀ e ∈ acc, e.truthy = true) → ∀ e ∈ out, e.truthy = true := by
  intro oes
  induction oes with
  | nil =>
    intro acc out h hacc
    simp only [collectExports] at h
    cases h
    exact hacc
  | cons kv rest ih =>
    obtain ⟨k, v⟩ := kv
    intro acc out h hacc
    simp only [collectExports] at h
    obtain ⟨o, ho, hrest⟩ := except_bind_ok h
    cases o with
    | none =>
      simp only at hrest
      exact ih acc out hrest hacc
    | some ex =>
      simp only at hrest
      by_cases ht : ex.truthy
      · rw [if_pos ht] at hrest
        by_cases hhash : ex.hashable
        · rw [if_pos hhash] at hrest
          refine ih _ out hrest ?_
          intro e he
          rcases mem_setAdd.mp he with he' | rfl
          · exact hacc e he'
          · exact ht
        · rw [if_neg hhash] at hrest
          cases hrest
      · rw [if_neg ht] at hrest
        exact ih acc out hrest hacc

/-- The `Outputs` stage of `extract_exports_and_imports`. -/
def exportsStage (doc : List (String × Val)) : Except PyErr (List Val) :=
  match pyGet doc "Outputs" with
  | none => .ok []
  | some (.dict oes) => collectExports oes []
  | some _ => .error PyErr.attributeError

theorem extract_ok_parts {doc : List (String × Val)} {r : ScanResult}
    (h : extract_exports_and_imports doc = .ok r) :
    ∃ exps imps, exportsStage doc = .ok exps
      ∧ findImports (.dict doc) [] = .ok imps
      ∧ r = ⟨exps, imps, findDyn (.dict doc) []⟩ := by
  unfold extract_exports_and_imports at h
  cases hout : pyGet doc "Outputs" with
  | none =>
    rw [hout] at h
    simp only [pure_bind] at h
    obtain ⟨imps, himps, h3⟩ := except_bind_ok h
    simp only [pure] at h3
    cases h3
    exact ⟨[], imps, by simp [exportsStage, hout], himps, rfl⟩
  | some outs =>
    rw [hout] at h
    cases outs with
    | dict oes =>
      simp only at h
      obtain ⟨exps, hexps, h2⟩ := except_bind_ok h
      obtain ⟨imps, himps, h3⟩ := except_bind_ok h2
      simp only [pure] at h3
      cases h3
      exact ⟨exps, imps, by simp [exportsStage, hout, hexps], himps, rfl⟩
    | str s => simp only at h; exact Except.noConfusion h
    | num n => simp only at h; exact Except.noConfusion h
    | bool b => simp only at h; exact Except.noConfusion h
    | null => simp only at h; exact Except.noConfusion h
    | arr l => simp only at h; exact Except.noConfusion h

/-- The matches of `DYNAMIC_REF_PATTERN` are never the empty string
(each starts with the literal `{{resolve:`). -/
theorem dynMatches_ne_empty :
    ∀ (n : Nat) (cs : List Char), cs.length ≤ n → ∀ x ∈ dynMatches cs, x ≠ "" := by
  intro n
  induction n with
  | zero =>
    intro cs hlen x hx
    rw [List.length_eq_zero.mp (Nat.le_zero.mp hlen)] at hx
    simp [dynMatches] at hx
  | succ n ih =>
    intro cs hlen x hx
    cases cs with
    | nil => simp [dynMatches] at hx
    | cons c cs2 =>
      rw [dynMatches] at hx
      split at hx
      · split at hx
        case h_1 payload rest hfc =>
          rcases List.mem_cons.mp hx with rfl | hx'
          · rw [string_ne_empty_iff, asString_data]
            simp [resolveOpen]
          · have hfl := findClose_length _ _ _ hfc
            simp only [List.length_drop, List.length_cons] at hfl
            refine ih rest ?_ x hx'
            simp only [List.length_cons] at hlen
            omega
        case h_2 =>
          refine ih cs2 ?_ x hx
          simp only [List.length_cons] at hlen
          omega
      · refine ih cs2 ?_ x hx
        simp only [List.length_cons] at hlen
        omega

/-- Claim C2 (amended): when every value keyed by `Fn::ImportValue` is a
hashable scalar, the scan succeeds and the imports set contains exactly
the values keyed by `Fn::ImportValue` anywhere in the tree — inside
sequences and nested mappings at any depth, traversal continuing into
each such value — with set semantics; and whenever
`extract_exports_and_imports` produces a ScanResult at all, its imports
set is that exact set.  (As stated the claim fails: a mapping or sequence
value under `Fn::ImportValue` makes `imports.add(value)` raise
`TypeError`, see the counterexample.) -/
theorem find_imports_exact :
    (∀ v : Val, (∀ u ∈ importVals v, u.hashable = true) →
      ∃ imps, findImports v [] = .ok imps
        ∧ (∀ x, x ∈ imps ↔ x ∈ importVals v) ∧ imps.Nodup)
  ∧ (∀ (doc : List (String × Val)) (r : ScanResult),
      extract_exports_and_imports doc = .ok r →
      (∀ x, x ∈ r.imports ↔ x ∈ importVals (.dict doc)) ∧ r.imports.Nodup) := by
  constructor
  · intro v hall
    obtain ⟨imps, himps⟩ := findImports_total v hall []
    exact ⟨imps, himps,
      fun x => by rw [findImports_ok_mem v [] imps himps x]; simp,
      findImports_ok_nodup v [] imps himps List.nodup_nil⟩
  · intro doc r h
    obtain ⟨exps, imps, _, himps, hr⟩ := extract_ok_parts h
    subst hr
    exact ⟨fun x => by rw [findImports_ok_mem _ [] imps himps x]; simp,
      findImports_ok_nodup _ [] imps himps List.nodup_nil⟩

/-- Counterexample to C2 as stated: an `Fn::ImportValue` whose value is
itself a mapping holding a nested reference — the case the claim says is
traversed — makes the scan raise `TypeError` (`imports.add` of an
unhashable dict), so no ScanResult is produced. -/
theorem find_imports_unhashable_counterexample :
    extract_exports_and_imports
        [("Fn::ImportValue", Val.dict [("Fn::ImportValue", Val.str "inner")])]
      = .error PyErr.typeError := by
  simp [extract_exports_and_imports, pyGet, findImports, findImportsDict, Val.hashable,
    bind, Except.bind, pure, Except.pure, throw, throwThe, MonadExcept.throw]

/-- Witness for C2 at a concrete nested document. -/
theorem find_imports_exact_witness :
    ∃ imps, findImports (Val.dict [("A", Val.dict [("Fn::ImportValue", Val.str "X")])]) []
        = .ok imps
      ∧ (∀ x, x ∈ imps
          ↔ x ∈ importVals (Val.dict [("A", Val.dict [("Fn::ImportValue", Val.str "X")])]))
      ∧ imps.Nodup :=
  find_imports_exact.1 _ (by decide)

/-- Claim C3 (amended): whenever `extract_exports_and_imports` produces a
ScanResult, its exports set contains exactly the truthy `Export.Name`
values under the values of the top-level `Outputs` mapping, and absence
of `Outputs` yields an empty exports set without an error (provided
the import scan itself does not raise).  (As stated the claim fails: an
`Outputs` value that is not a mapping makes `.get` raise
`AttributeError`, see the counterexample.) -/
theorem extract_exports_exact :
    (∀ (doc : List (String × Val)) (r : ScanResult),
      extract_exports_and_imports doc = .ok r →
      ∀ x, x ∈ r.exports ↔ x ∈ specExportNames (outputEntries doc))
  ∧ (∀ doc : List (String × Val), pyGet doc "Outputs" = none →
      (∀ u ∈ importVals (.dict doc), u.hashable = true) →
      ∃ r, extract_exports_and_imports doc = .ok r ∧ r.exports = []) := by
  constructor
  · intro doc r h x
    obtain ⟨exps, imps, hexp, himps, hr⟩ := extract_ok_parts h
    subst hr
    unfold exportsStage at hexp
    cases hout : pyGet doc "Outputs" with
    | none =>
      rw [hout] at hexp
      cases hexp
      simp [outputEntries, hout, specExportNames]
    | some outs =>
      rw [hout] at hexp
      cases outs with
      | dict oes =>
        simp only at hexp
        show x ∈ exps ↔ _
        rw [collectExports_ok_mem oes [] exps hexp x]
        simp [outputEntries, hout]
      | str s => cases hexp
      | num n => cases hexp
      | bool b => cases hexp
      | null => cases hexp
      | arr l => cases hexp
  · intro doc hout hall
    obtain ⟨imps, himps⟩ := findImports_total (.dict doc) hall []
    refine ⟨⟨[], imps, findDyn (.dict doc) []⟩, ?_, rfl⟩
    unfold extract_exports_and_imports
    rw [hout]
    simp only [pure_bind, himps]
    rfl

/-- Counterexample to C3 as stated: a top-level `Outputs` whose value is
a mapping with a scalar value — the claim predicts an empty exports set,
but the code raises `AttributeError` on `v.get("Export", {})`. -/
theorem extract_outputs_shape_counterexample :
    extract_exports_and_imports [("Outputs", Val.dict [("O1", Val.str "notamapping")])]
      = .error PyErr.attributeError := by
  simp [extract_exports_and_imports, pyGet, getExportName, collectExports,
    bind, Except.bind, pure, Except.pure, throw, throwThe, MonadExcept.throw]

/-- Witness for C3 at a well-formed document with one export. -/
theorem extract_exports_exact_witness :
    extract_exports_and_imports
        [("Outputs", Val.dict
          [("Out1", Val.dict [("Export", Val.dict [("Name", Val.str "MyExport")])])])]
      = .ok ⟨[Val.str "MyExport"], [], []⟩
  ∧ (∀ x, x ∈ ([Val.str "MyExport"] : List Val)
      ↔ x ∈ specExportNames (outputEntries
          [("Outputs", Val.dict
            [("Out1", Val.dict [("Export", Val.dict [("Name", Val.str "MyExport")])])])])) := by
  have hok : extract_exports_and_imports
      [("Outputs", Val.dict
        [("Out1", Val.dict [("Export", Val.dict [("Name", Val.str "MyExport")])])])]
      = .ok ⟨[Val.str "MyExport"], [], []⟩ := by
    simp [extract_exports_and_imports, pyGet, getExportName, collectExports, Val.truthy,
      Val.hashable, setAdd, findImports, findImportsDict, findDyn, findDynDict, dynMatches,
      findClose, listStarts, resolveOpen, bind, Except.bind, pure, Except.pure]
  exact ⟨hok, fun x => extract_exports_exact.1 _ _ hok x⟩

/-- Claim C4: the dynamics set is exactly the set of non-overlapping
`{{resolve:...}}` matches (leftmost, shortest to the first `}}`) found
across all string scalars anywhere in the tree, collected verbatim with
set semantics; the collection itself never fails, and a produced
ScanResult carries exactly that set. -/
theorem find_dynamic_references_exact :
    (∀ (v : Val) (x : String),
      (x ∈ findDyn v [] ↔ ∃ s, s ∈ strScalars v ∧ x ∈ dynMatches s.toList)
      ∧ (findDyn v []).Nodup)
  ∧ (∀ (doc : List (String × Val)) (r : ScanResult),
      extract_exports_and_imports doc = .ok r →
      ∀ x, x ∈ r.dynamics ↔ ∃ s, s ∈ strScalars (.dict doc) ∧ x ∈ dynMatches s.toList) := by
  constructor
  · intro v x
    refine ⟨?_, findDyn_nodup v [] List.nodup_nil⟩
    rw [findDyn_mem v [] x]
    simp
  · intro doc r h x
    obtain ⟨exps, imps, _, _, hr⟩ := extract_ok_parts h
    subst hr
    show x ∈ findDyn (.dict doc) [] ↔ _
    rw [findDyn_mem _ [] x]
    simp

/-- Witness for C4: one scalar contributing one marker with surrounding
text. -/
theorem find_dynamic_references_exact_witness :
    extract_exports_and_imports [("R", Val.str "a\x7b\x7bresolve:ssm:p\x7d\x7db")]
      = .ok ⟨[], [], ["\x7b\x7bresolve:ssm:p\x7d\x7d"]⟩
  ∧ (∀ x, x ∈ (["\x7b\x7bresolve:ssm:p\x7d\x7d"] : List String)
      ↔ ∃ s, s ∈ strScalars (.dict [("R", Val.str "a\x7b\x7bresolve:ssm:p\x7d\x7db")])
          ∧ x ∈ dynMatches s.toList) := by
  have hok : extract_exports_and_imports [("R", Val.str "a\x7b\x7bresolve:ssm:p\x7d\x7db")]
      = .ok ⟨[], [], ["\x7b\x7bresolve:ssm:p\x7d\x7d"]⟩ := by
    simp [extract_exports_and_imports, pyGet, findImports, findImportsDict, findDyn,
      findDynDict, dynMatches, findClose, listStarts, resolveOpen, rbrace, setAdd,
      bind, Except.bind, pure, Except.pure]
    decide
  exact ⟨hok, fun x => find_dynamic_references_exact.2 _ _ hok x⟩

/-- Claim C7 (amended): for every successfully scanned document the
dynamics set contains only non-empty strings, and the exports set only
truthy values — in particular every string-valued export is non-empty —
though an export need not be a string (a truthy numeric `Export.Name`
is added as-is); the imports set holds the `Fn::ImportValue` values
verbatim and may contain the empty string.  The claim as stated fails
for imports (empty string) and for exports (non-string value): see the
counterexample, which exhibits both. -/
theorem scan_result_string_invariants (doc : List (String × Val)) (r : ScanResult)
    (h : extract_exports_and_imports doc = .ok r) :
    (∀ d ∈ r.dynamics, d ≠ "")
  ∧ (∀ e ∈ r.exports, e.truthy = true)
  ∧ (∀ s : String, Val.str s ∈ r.exports → s ≠ "") := by
  obtain ⟨exps, imps, hexp, himps, hr⟩ := extract_ok_parts h
  subst hr
  have htr : ∀ e ∈ exps, e.truthy = true := by
    intro e he
    unfold exportsStage at hexp
    cases hout : pyGet doc "Outputs" with
    | none =>
      rw [hout] at hexp
      cases hexp
      cases he
    | some outs =>
      rw [hout] at hexp
      cases outs with
      | dict oes =>
        simp only at hexp
        exact collectExports_ok_truthy oes [] exps hexp (by simp) e he
      | str s => cases hexp
      | num n => cases hexp
      | bool b => cases hexp
      | null => cases hexp
      | arr l => cases hexp
  refine ⟨?_, htr, ?_⟩
  · intro d hd
    have hm := (findDyn_mem (.dict doc) [] d).mp hd
    rcases hm with hd0 | ⟨s, _, hds⟩
    · cases hd0
    · exact dynMatches_ne_empty s.toList.length s.toList le_rfl d hds
  · intro s hs
    have ht := htr _ hs
    simpa [Val.truthy] using ht

/-- Counterexample to C7 as stated, for both failing sets:
`Fn::ImportValue: ""` scans successfully and puts the empty string into
the imports set, and a numeric `Export.Name: 123` scans successfully
(it is truthy and hashable) and puts a non-string value into the
exports set. -/
theorem scan_imports_empty_string_counterexample :
    (extract_exports_and_imports [("Fn::ImportValue", Val.str "")]
        = .ok ⟨[], [Val.str ""], []⟩)
  ∧ (Val.str "").truthy = false
  ∧ (extract_exports_and_imports
        [("Outputs", Val.dict
          [("O", Val.dict [("Export", Val.dict [("Name", Val.num 123)])])])]
        = .ok ⟨[Val.num 123], [], []⟩)
  ∧ (Val.num 123).isStr = false := by
  refine ⟨?_, by decide, ?_, by decide⟩
  · simp [extract_exports_and_imports, pyGet, findImports, findImportsDict, Val.hashable,
      setAdd, findDyn, findDynDict, dynMatches, bind, Except.bind, pure, Except.pure]
  · simp [extract_exports_and_imports, pyGet, getExportName, collectExports, Val.truthy,
      Val.hashable, setAdd, findImports, findImportsDict, findDyn, findDynDict, dynMatches,
      bind, Except.bind, pure, Except.pure]

/-- Witness for C7 at a document with one export and one dynamic marker. -/
theorem scan_result_string_invariants_witness :
    (∀ d ∈ (["\x7b\x7bresolve:ssm:p\x7d\x7d"] : List String), d ≠ "")
  ∧ (∀ e ∈ ([Val.str "E"] : List Val), e.truthy = true)
  ∧ (∀ s : String, Val.str s ∈ ([Val.str "E"] : List Val) → s ≠ "") := by
  have hok : extract_exports_and_imports
      [("Outputs", Val.dict [("O", Val.dict [("Export", Val.dict [("Name", Val.str "E")])])]),
       ("R", Val.str "\x7b\x7bresolve:ssm:p\x7d\x7d")]
      = .ok ⟨[Val.str "E"], [], ["\x7b\x7bresolve:ssm:p\x7d\x7d"]⟩ := by
    simp [extract_exports_and_imports, pyGet, getExportName, collectExports, Val.truthy,
      Val.hashable, setAdd, findImports, findImportsDict, findDyn, findDynDict, dynMatches,
      findClose, listStarts, resolveOpen, rbrace, bind, Except.bind, pure, Except.pure]
    decide
  exact scan_result_string_invariants _ _ hok

end Cfntdv
